import Mathlib

/-!
Verification development for a pseudo-terminal session API.

The program under study has three modules:
* `app/terminal_api.py` — class `TerminalAPI`: a PTY wrapper with a
  regex-based output filter (`_filter_output`), a bounded output buffer
  (`collections.deque(maxlen=10000)`), a background reader loop
  (`_read_output_loop`) and the operations `start`, `write`,
  `send_command`, `read_output`, `get_latest_output`, `is_alive`, `close`.
* `app/session_manager.py` — class `SessionManager`: three dicts
  (`_sessions`, `_history`, `_metadata`) mutated under one lock, with
  `create_session`, `_resolve_id`, `record_command`, `get_history`,
  `get_session`, `kill_session`, `cleanup_all`.
* `app/server.py` — a thin HTTP layer; only its `get_history` endpoint is
  embedded here (it contains a reachability-relevant `None` check).

Strings are embedded as `List Char`.  Python dicts are embedded as
insertion-ordered association lists (Python 3.7+ dicts preserve insertion
order, which fixes the iteration order used by name resolution).
Character-class tests (`\d`, `str.isalnum`) are embedded with their ASCII
meaning; the Python originals also accept further Unicode code points,
which no property below exercises.
-/

/-! ## Output filter (`TerminalAPI._filter_output`, terminal_api.py lines 43-107)

Each `re.sub(pat, '', s)` / `str.replace(old, '')` call removes the
leftmost non-overlapping occurrences of its pattern, scanning left to
right and resuming immediately after each removed occurrence.  A matcher
returns the length of the (unique, leftmost-greedy) match at the head of
the remaining input, or `none`.  Each of the patterns in the source is
deterministic in this sense: every repetition operator (`[\d;]+`, `\d+`,
`[^\x07]*`, `[^\x1b]*`) is over a character class that excludes the
character required immediately after it, so the regex backtracking cannot
produce a match that maximal munch misses. -/

def ESC : Char := '\x1b'

def BEL : Char := '\x07'

/-- Python `\d` (ASCII part) or `';'` — the class `[\d;]` of the DA response
pattern. -/
def isDigitSemi (c : Char) : Bool := c.isDigit || c == ';'

abbrev Matcher := List Char → Option Nat

/-- `startsWith pat s`: `pat` is a prefix of `s`. -/
def startsWith : List Char → List Char → Bool
  | [], _ => true
  | _ :: _, [] => false
  | p :: ps, c :: cs => p == c && startsWith ps cs

/-- Matcher for a literal pattern (used for `str.replace` and the regexes
that contain no repetition operator). -/
def litM (pat : List Char) : Matcher := fun s =>
  if startsWith pat s then some pat.length else none

/-- Alternation of two matchers (used for the `[hl]` suffix of the mode
toggle patterns). -/
def altM (m1 m2 : Matcher) : Matcher := fun s =>
  match m1 s with
  | some n => some n
  | none => m2 s

/-- Line 65: `re.sub(r'\x1b\[\?[\d;]+c', '', filtered)` — Device Attributes
response: ESC `[` `?` then one or more digits/semicolons, then `c`. -/
def matchDA : Matcher
  | c1 :: c2 :: c3 :: rest =>
    if c1 == ESC && c2 == '[' && c3 == '?' then
      let run := rest.takeWhile isDigitSemi
      if run.length > 0 && ((rest.drop run.length).head? == some 'c') then
        some (3 + run.length + 1)
      else none
    else none
  | _ => none

/-- Line 69: `re.sub(r'\x1b\[\d+;\d+R', '', filtered)` — cursor position
report: ESC `[` digits `;` digits `R`. -/
def matchCPR : Matcher
  | c1 :: c2 :: rest =>
    if c1 == ESC && c2 == '[' then
      let d1 := rest.takeWhile Char.isDigit
      if d1.length > 0 && ((rest.drop d1.length).head? == some ';') then
        let rest2 := rest.drop (d1.length + 1)
        let d2 := rest2.takeWhile Char.isDigit
        if d2.length > 0 && ((rest2.drop d2.length).head? == some 'R') then
          some (2 + d1.length + 1 + d2.length + 1)
        else none
      else none
    else none
  | _ => none

/-- Lines 73-88: the eight mode-toggle patterns `\x1b\[\?<id>[hl]`. -/
def modeM (digits : List Char) : Matcher :=
  altM (litM ((ESC :: '[' :: '?' :: digits) ++ ['h']))
       (litM ((ESC :: '[' :: '?' :: digits) ++ ['l']))

def mode2004 : Matcher := modeM ['2', '0', '0', '4']

def mode1049 : Matcher := modeM ['1', '0', '4', '9']

def mode1 : Matcher := modeM ['1']

def mode25 : Matcher := modeM ['2', '5']

def mode1000 : Matcher := modeM ['1', '0', '0', '0']

def mode1002 : Matcher := modeM ['1', '0', '0', '2']

def mode1003 : Matcher := modeM ['1', '0', '0', '3']

def mode1006 : Matcher := modeM ['1', '0', '0', '6']

/-- Lines 91-94: cursor save/restore `\x1b\[s`, `\x1b\[u`, `\x1b7`, `\x1b8`. -/
def escS : Matcher := litM [ESC, '[', 's']

def escU : Matcher := litM [ESC, '[', 'u']

def esc7 : Matcher := litM [ESC, '7']

def esc8 : Matcher := litM [ESC, '8']

/-- Line 98: `re.sub(r'\x1b\][^\x07]*\x07', '', filtered)` — OSC terminated
by BEL. -/
def matchOSCBel : Matcher
  | c1 :: c2 :: rest =>
    if c1 == ESC && c2 == ']' then
      let body := rest.takeWhile (fun c => c != BEL)
      if (rest.drop body.length).head? == some BEL then
        some (2 + body.length + 1)
      else none
    else none
  | _ => none

/-- Line 99: `re.sub(r'\x1b\][^\x1b]*\x1b\\\\', '', filtered)`.  In the raw
string the tail `\\\\` is four backslash characters, which the regex engine
reads as TWO escaped backslashes: the pattern requires ESC `]` body ESC
`\` `\` — an OSC terminated by escape plus two backslashes, not the
standard escape-backslash string terminator. -/
def matchOSCStCode : Matcher
  | c1 :: c2 :: rest =>
    if c1 == ESC && c2 == ']' then
      let body := rest.takeWhile (fun c => c != ESC)
      match rest.drop body.length with
      | e :: b1 :: b2 :: _ =>
        if e == ESC && b1 == '\\' && b2 == '\\' then some (2 + body.length + 3)
        else none
      | _ => none
    else none
  | _ => none

/-- Modelled from the spec: the claim's recognized OSC pattern "an OSC
sequence terminated by BEL or escape+backslash" — this is the
escape+single-backslash form (`ESC ] body ESC \`), which the comment at
terminal_api.py line 97 also describes.  It intentionally differs from
`matchOSCStCode`, the pattern the code actually compiles. -/
def matchOSCStSpec : Matcher
  | c1 :: c2 :: rest =>
    if c1 == ESC && c2 == ']' then
      let body := rest.takeWhile (fun c => c != ESC)
      match rest.drop body.length with
      | e :: b1 :: _ =>
        if e == ESC && b1 == '\\' then some (2 + body.length + 2)
        else none
      | _ => none
    else none
  | _ => none

/-- Line 60: `filtered.replace('23;24;28;32;42c', '')` — the known truncated
DA tail. -/
def litTail : Matcher := litM ("23;24;28;32;42c".toList)

/-- Remove all leftmost non-overlapping matches of `m`, resuming after each
match — the semantics of `re.sub(pat, '', s)` and `str.replace(old, '')`.
Structured with explicit fuel (an upper bound on the remaining length) so
that it is structurally recursive and kernel-evaluable; `removeAll` below
instantiates the fuel with the input length.  A zero-length match is
treated as no match (none of the source's patterns can match the empty
string). -/
def removeAllFuel (m : Matcher) : Nat → List Char → List Char
  | 0, s => s
  | _ + 1, [] => []
  | fuel + 1, c :: rest =>
    match m (c :: rest) with
    | some n =>
      if 0 < n then removeAllFuel m fuel (List.drop n (c :: rest))
      else c :: removeAllFuel m fuel rest
    | none => c :: removeAllFuel m fuel rest

def removeAll (m : Matcher) (s : List Char) : List Char :=
  removeAllFuel m s.length s

/-- The sixteen escape-headed substitution passes of `_filter_output`, in
source order (lines 65-99). -/
def escMatchers : List Matcher :=
  [matchDA, matchCPR, mode2004, mode1049, mode1, mode25,
   mode1000, mode1002, mode1003, mode1006, escS, escU, esc7, esc8,
   matchOSCBel, matchOSCStCode]

def runPasses (ms : List Matcher) (s : List Char) : List Char :=
  ms.foldl (fun acc m => removeAll m acc) s

def escPasses (s : List Char) : List Char := runPasses escMatchers s

/-- Lines 103-105: `replace('\x17','')`, `replace('\x18','')`,
`replace('\x1c','')`. -/
def ctlPasses (s : List Char) : List Char :=
  removeAll (litM ['\x1c']) (removeAll (litM ['\x18']) (removeAll (litM ['\x17']) s))

namespace TerminalAPI

/-- `TerminalAPI._filter_output` (lines 43-107): empty input is returned as
is; otherwise the passes run in source order — the literal DA tail first,
then the sixteen escape-sequence substitutions, then the three control
characters. -/
def filter_output (data : List Char) : List Char :=
  if data.isEmpty then data
  else ctlPasses (escPasses (removeAll litTail data))

def filter_output_str (s : String) : String :=
  List.asString (filter_output s.toList)

end TerminalAPI

/-- `hasM m s`: some suffix of `s` has a match of `m` at its head, i.e. the
text contains an occurrence of the pattern. -/
def hasM (m : Matcher) : List Char → Bool
  | [] => (m []).isSome
  | c :: rest => (m (c :: rest)).isSome || hasM m rest

/-- The claim's recognized control-response patterns: DA response, cursor
position report, the eight mode toggles, and OSC terminated by BEL or by
escape+backslash. -/
def hasAnyRecognized (s : List Char) : Bool :=
  hasM matchDA s || hasM matchCPR s ||
  hasM mode2004 s || hasM mode1049 s || hasM mode1 s || hasM mode25 s ||
  hasM mode1000 s || hasM mode1002 s || hasM mode1003 s || hasM mode1006 s ||
  hasM matchOSCBel s || hasM matchOSCStSpec s

/-! ## Output buffer (`deque(maxlen=10000)`, terminal_api.py line 30)

A `deque` with a `maxlen` discards the oldest element when an append would
exceed the bound. -/

def bufferMaxlen : Nat := 10000

def dequeAppendCap (cap : Nat) (q : List String) (x : String) : List String :=
  if q.length < cap then q ++ [x] else q.tail ++ [x]

def dequeAppend (q : List String) (x : String) : List String :=
  dequeAppendCap bufferMaxlen q x

/-! ## TerminalAPI state and operations (terminal_api.py) -/

inductive TermErr where
  | alreadyRunning
  | notRunning
deriving DecidableEq

/-- The mutable state of one `TerminalAPI` object (fields set in
`__init__`, lines 25-32).  The PTY handle is an opaque token; the reader
thread object is not represented (its liveness is not separable from
`running` in this embedding). -/
structure TerminalState where
  cols : Nat
  rows : Nat
  shell_command : String
  log_path : Option String
  process : Option Nat
  output_buffer : List String
  running : Bool
deriving DecidableEq

namespace TerminalAPI

/-- `__init__` (lines 15-33; Python defaults `cols=120`, `rows=30`,
`shell_command="cmd.exe /c wsl -d kali-linux"`, `log_path=None`).  The
Windows VT-mode console call has no state of its own here. -/
def init (cols rows : Nat) (shell_command : String) (log_path : Option String) :
    TerminalState :=
  { cols := cols, rows := rows, shell_command := shell_command,
    log_path := log_path, process := none, output_buffer := [], running := false }

/-- `start` (lines 137-153): raises if already running, else spawns the PTY
and starts the reader thread.  The spawn itself is modelled as always
succeeding (a spawn failure of the external PTY facility would propagate
before any state change, like the explicit raise). -/
def start (st : TerminalState) : TerminalState × Except TermErr Unit :=
  if st.running then (st, Except.error TermErr.alreadyRunning)
  else ({ st with process := some 0, running := true }, Except.ok ())

/-- `write` (lines 155-164): raises if not running, else passes the text to
the driver.  The middle component is the list of strings written to the
PTY by the call. -/
def write (st : TerminalState) (text : String) :
    TerminalState × List String × Except TermErr Unit :=
  if st.running then (st, [text], Except.ok ())
  else (st, [], Except.error TermErr.notRunning)

/-- `read_output` (lines 192-207): optional sleep, then
`output = ''.join(self._output_buffer); self._output_buffer.clear()`.
`arrivals` are the chunks the reader thread appends during the sleep; a
call with `timeout=0` returns immediately, i.e. `arrivals = []`. -/
def read_output (st : TerminalState) (arrivals : List String) :
    TerminalState × String :=
  let buf := arrivals.foldl dequeAppend st.output_buffer
  ({ st with output_buffer := [] }, String.join buf)

/-- `send_command` (lines 166-190): raises if not running; else clears the
buffer, writes `command + '\r'`, sleeps `wait_time`, then returns
`read_output()`.  `arrivals` are the chunks the reader thread appends
during the sleep.  Components: post-state, strings written to the PTY,
result. -/
def send_command (st : TerminalState) (command : String) (arrivals : List String) :
    TerminalState × List String × Except TermErr String :=
  if st.running then
    let st1 := { st with output_buffer := ([] : List String) }
    let st2 := { st1 with output_buffer := arrivals.foldl dequeAppend st1.output_buffer }
    let r := read_output st2 []
    (r.1, [command ++ "\r"], Except.ok r.2)
  else (st, [], Except.error TermErr.notRunning)

/-- `get_latest_output` (lines 209-220): `''.join(list(buf)[-lines:])`
without clearing.  For `lines = 0` Python's `[-0:]` is the whole list. -/
def get_latest_output (st : TerminalState) (lines : Nat) : String :=
  if lines == 0 then String.join st.output_buffer
  else String.join (st.output_buffer.drop (st.output_buffer.length - lines))

/-- `is_alive` (lines 222-224); thread liveness is identified with the
`running` flag in this embedding. -/
def is_alive (st : TerminalState) : Bool := st.running

/-- `close` (lines 226-236). -/
def close (st : TerminalState) : TerminalState :=
  if st.running then { st with running := false, process := none } else st

/-- One iteration of the body of `_read_output_loop` (lines 112-131) after
`process.read` returned `data`: if the data is non-empty, filter it; if the
filtered text is non-empty, append it to the buffer and, when a log path is
configured, append it to the log.  The second component is the list of
texts written to the log sink by this step. -/
def read_loop_step (st : TerminalState) (data : String) :
    TerminalState × List String :=
  if data == "" then (st, [])
  else
    let filtered := filter_output_str data
    if filtered == "" then (st, [])
    else
      ({ st with output_buffer := dequeAppend st.output_buffer filtered },
       if st.log_path.isSome then [filtered] else [])

end TerminalAPI

/-! ## Session registry (`SessionManager`, session_manager.py)

Python dicts preserve insertion order; they are embedded as association
lists where assignment to a fresh key appends at the end, assignment to a
present key updates in place, and `del` removes the entry. -/

def alistLookup {α : Type} : List (String × α) → String → Option α
  | [], _ => none
  | (k', v') :: rest, k => if k' = k then some v' else alistLookup rest k

def alistInsert {α : Type} : List (String × α) → String → α → List (String × α)
  | [], k, v => [(k, v)]
  | (k', v') :: rest, k, v =>
    if k' = k then (k, v) :: rest else (k', v') :: alistInsert rest k v

def alistErase {α : Type} : List (String × α) → String → List (String × α)
  | [], _ => []
  | (k', v') :: rest, k => if k' = k then rest else (k', v') :: alistErase rest k

def alistKeys {α : Type} (l : List (String × α)) : List String := l.map Prod.fst

/-- History entry (session_manager.py lines 88-91); `timestamp` stands for
the `time.time()` float. -/
structure HistEntry where
  command : String
  timestamp : Nat
deriving DecidableEq

/-- Metadata entry (session_manager.py lines 63-66). -/
structure SessionMeta where
  name : String
  created_at : Nat
deriving DecidableEq

/-- The three maps of a `SessionManager` (lines 15-19). -/
structure Registry where
  sessions : List (String × TerminalState)
  history : List (String × List HistEntry)
  metadata : List (String × SessionMeta)
deriving DecidableEq

namespace SessionManager

/-- Name sanitization inside `create_session` (line 46):
`"".join(c for c in name if c.isalnum() or c in (' ','-','_')).strip().replace(' ','_')`
(`isalnum` taken in its ASCII meaning). -/
def sanitize_name (name : String) : String :=
  ((List.asString (name.toList.filter
      (fun c => c.isAlphanum || c == ' ' || c == '-' || c == '_'))).trim).replace " " "_"

/-- `create_session` (lines 22-69).  `sid` is the freshly generated
`uuid.uuid4()` string, `now` the creation time.  Everything before the
locked registration — building the `TerminalAPI`, `terminal.start()`, the
startup cleanup — can raise; `ok = false` models such a failure, which
propagates before any map is touched.  On success the started terminal
(its buffer drained by `_perform_startup_cleanup`) is registered together
with an empty history and the metadata entry.  Returns the new state and
`some session_id` (or `none` on failure). -/
def create_session (st : Registry) (sid : String) (name : Option String)
    (cols rows : Nat) (shell_command : Option String) (now : Nat) (ok : Bool) :
    Registry × Option String :=
  let name := match name with
    | some n => if n = "" then "Session-" ++ sid.take 8 else n
    | none => "Session-" ++ sid.take 8
  let log_path := "logs/" ++ sanitize_name name ++ "_" ++ sid.take 8 ++ ".log"
  let cmd := shell_command.getD "cmd.exe /c wsl -d kali-linux"
  if ok then
    let t0 := TerminalAPI.init cols rows cmd (some log_path)
    let t1 := (TerminalAPI.start t0).1
    let terminal := { t1 with output_buffer := ([] : List String) }
    ({ sessions := alistInsert st.sessions sid terminal,
       history := alistInsert st.history sid [],
       metadata := alistInsert st.metadata sid ⟨name, now⟩ }, some sid)
  else (st, none)

/-- `_resolve_id` (lines 71-81): the identifier is tried as a direct key of
`_sessions`; otherwise `_metadata` is scanned in insertion order for the
first entry whose name equals it. -/
def resolve_id (st : Registry) (ident : String) : Option String :=
  if (alistLookup st.sessions ident).isSome then some ident
  else (st.metadata.find? (fun p => p.2.name == ident)).map Prod.fst

/-- `record_command` (lines 83-91): appends to the history list when the
identifier resolves and the resolved id has a history entry. -/
def record_command (st : Registry) (ident command : String) (now : Nat) : Registry :=
  match resolve_id st ident with
  | some sid =>
    match alistLookup st.history sid with
    | some h => { st with history := alistInsert st.history sid (h ++ [⟨command, now⟩]) }
    | none => st
  | none => st

/-- `get_history` (lines 93-99).  Every Python return path yields a list
(`self._history.get(sid, [])` or `[]`), never `None`; the `Option` layer
records exactly that, so `none` is unreachable. -/
def get_history (st : Registry) (ident : String) : Option (List HistEntry) :=
  match resolve_id st ident with
  | some sid => some ((alistLookup st.history sid).getD [])
  | none => some []

/-- `get_session` (lines 116-133) — the same resolution logic, inlined in
the source: direct id lookup, then the name scan indexing `_sessions[sid]`
(which under the registry invariant cannot miss). -/
def get_session (st : Registry) (ident : String) : Option TerminalState :=
  match alistLookup st.sessions ident with
  | some t => some t
  | none =>
    match st.metadata.find? (fun p => p.2.name == ident) with
    | some p => alistLookup st.sessions p.1
    | none => none

/-- `kill_session` (lines 150-163): resolve, close the terminal, delete the
session entry, and delete the (membership-guarded) history and metadata
entries; `false` when the identifier does not resolve. -/
def kill_session (st : Registry) (ident : String) : Registry × Bool :=
  match resolve_id st ident with
  | some sid =>
    if (alistLookup st.sessions sid).isSome then
      ({ sessions := alistErase st.sessions sid,
         history := alistErase st.history sid,
         metadata := alistErase st.metadata sid }, true)
    else (st, false)
  | none => (st, false)

/-- `cleanup_all` (lines 165-172). -/
def cleanup_all (_st : Registry) : Registry :=
  { sessions := [], history := [], metadata := [] }

end SessionManager

/-- Registry states reachable from the empty initial state by the mutating
operations. -/
inductive Reachable : Registry → Prop
  | init : Reachable ⟨[], [], []⟩
  | create (st sid name cols rows cmd now ok) : Reachable st →
      Reachable (SessionManager.create_session st sid name cols rows cmd now ok).1
  | kill (st ident) : Reachable st →
      Reachable (SessionManager.kill_session st ident).1
  | record (st ident command now) : Reachable st →
      Reachable (SessionManager.record_command st ident command now)
  | cleanup (st) : Reachable st →
      Reachable (SessionManager.cleanup_all st)

/-- The `get_history` endpoint of server.py (lines 124-130): it returns 404
only when the manager hands it `None` ("None means session not found"),
otherwise 200 with the history.  `Except.error 404` is the not-found
outcome. -/
def server_get_history (st : Registry) (ident : String) :
    Except Nat (List HistEntry) :=
  match SessionManager.get_history st ident with
  | none => Except.error 404
  | some h => Except.ok h

/-! ## Interleaving model of `read_output` against the reader thread

`read_output` (lines 205-206) performs two separate steps on the shared
deque, with no lock: `output = ''.join(self._output_buffer)` and
`self._output_buffer.clear()`.  The reader thread's
`self._output_buffer.append(filtered_data)` (line 119) can be scheduled
between them.  Each `DrainAct` is one such atomic step; `snapshot` is the
drainer's local join result (kept as the chunk list), `outputs` the
return values of completed drains. -/

inductive DrainAct where
  | appendChunk (s : String)
  | drainRead
  | drainClear
deriving DecidableEq

structure DrainState where
  buffer : List String
  snapshot : List String
  outputs : List (List String)
deriving DecidableEq

def drainStep (st : DrainState) : DrainAct → DrainState
  | DrainAct.appendChunk s => { st with buffer := dequeAppend st.buffer s }
  | DrainAct.drainRead => { st with snapshot := st.buffer }
  | DrainAct.drainClear => { st with buffer := [], outputs := st.outputs ++ [st.snapshot] }

def drainRun (st : DrainState) (acts : List DrainAct) : DrainState :=
  acts.foldl drainStep st

/-- The chunks appended by a schedule, in order. -/
def appendedChunks (acts : List DrainAct) : List String :=
  acts.filterMap (fun a => match a with
    | DrainAct.appendChunk s => some s
    | _ => none)

/-- Schedules in which every drain executes its read and clear back to
back, with no reader append in between. -/
inductive WFSched : List DrainAct → Prop
  | nil : WFSched []
  | app (s : String) (r : List DrainAct) : WFSched r →
      WFSched (DrainAct.appendChunk s :: r)
  | drain (r : List DrainAct) : WFSched r →
      WFSched (DrainAct.drainRead :: DrainAct.drainClear :: r)

/-! ## Lemmas about `removeAll` and the filter passes -/

theorem removeAllFuel_nil_eq (m : Matcher) (f : Nat) : removeAllFuel m f [] = [] := by
  cases f <;> rfl

theorem removeAllFuel_congr (m : Matcher) :
    ∀ (f1 f2 : Nat) (s : List Char), s.length ≤ f1 → s.length ≤ f2 →
      removeAllFuel m f1 s = removeAllFuel m f2 s := by
  intro f1
  induction f1 with
  | zero =>
    intro f2 s h1 _
    have hs : s = [] := List.eq_nil_of_length_eq_zero (Nat.le_zero.mp h1)
    subst hs
    rw [removeAllFuel_nil_eq, removeAllFuel_nil_eq]
  | succ f ih =>
    intro f2 s h1 h2
    cases s with
    | nil => rw [removeAllFuel_nil_eq, removeAllFuel_nil_eq]
    | cons c rest =>
      cases f2 with
      | zero => exact absurd h2 (by simp)
      | succ g =>
        simp only [removeAllFuel]
        cases hm : m (c :: rest) with
        | none =>
          simp only [List.length_cons] at h1 h2
          rw [ih g rest (by omega) (by omega)]
        | some n =>
          by_cases hn : 0 < n
          · simp only [if_pos hn]
            simp only [List.length_cons] at h1 h2
            exact ih g (List.drop n (c :: rest))
              (by simp only [List.length_drop, List.length_cons]; omega)
              (by simp only [List.length_drop, List.length_cons]; omega)
          · simp only [if_neg hn]
            simp only [List.length_cons] at h1 h2
            rw [ih g rest (by omega) (by omega)]

theorem removeAll_nil (m : Matcher) : removeAll m [] = [] := rfl

theorem removeAll_cons_none (m : Matcher) (c : Char) (rest : List Char)
    (h : m (c :: rest) = none) :
    removeAll m (c :: rest) = c :: removeAll m rest := by
  show removeAllFuel m (rest.length + 1) (c :: rest) = _
  simp only [removeAllFuel, h]
  rfl

theorem removeAll_cons_some (m : Matcher) (c : Char) (rest : List Char) (n : Nat)
    (h : m (c :: rest) = some n) (hn : 0 < n) :
    removeAll m (c :: rest) = removeAll m (List.drop n (c :: rest)) := by
  show removeAllFuel m (rest.length + 1) (c :: rest) = _
  simp only [removeAllFuel, h, if_pos hn]
  exact removeAllFuel_congr m rest.length (List.drop n (c :: rest)).length _
    (by simp only [List.length_drop, List.length_cons]; omega) le_rfl

theorem removeAllFuel_sublist (m : Matcher) :
    ∀ (f : Nat) (s : List Char), List.Sublist (removeAllFuel m f s) s := by
  intro f
  induction f with
  | zero => intro s; exact List.Sublist.refl s
  | succ f ih =>
    intro s
    cases s with
    | nil => exact List.Sublist.refl []
    | cons c rest =>
      simp only [removeAllFuel]
      cases hm : m (c :: rest) with
      | none => exact List.Sublist.cons₂ c (ih rest)
      | some n =>
        by_cases hn : 0 < n
        · simp only [if_pos hn]
          exact (ih _).trans (List.drop_sublist n (c :: rest))
        · simp only [if_neg hn]
          exact List.Sublist.cons₂ c (ih rest)

theorem removeAll_sublist (m : Matcher) (s : List Char) : List.Sublist (removeAll m s) s :=
  removeAllFuel_sublist m s.length s

/-- Every match of `m` starts with the character `c`. -/
def HeadIs (m : Matcher) (c : Char) : Prop :=
  ∀ (s : List Char) (n : Nat), m s = some n → ∃ t, s = c :: t

/-- Every match of `m` has positive length. -/
def PosM (m : Matcher) : Prop :=
  ∀ (s : List Char) (n : Nat), m s = some n → 0 < n

theorem startsWith_head {p : Char} {ps s : List Char}
    (h : startsWith (p :: ps) s = true) : ∃ t, s = p :: t := by
  cases s with
  | nil => simp [startsWith] at h
  | cons c cs =>
    refine ⟨cs, ?_⟩
    simp only [startsWith, Bool.and_eq_true, beq_iff_eq] at h
    rw [h.1]

theorem litM_headIs (c : Char) (pat : List Char) (hp : pat.head? = some c) :
    HeadIs (litM pat) c := by
  intro s n h
  unfold litM at h
  split at h
  case isTrue hsw =>
    cases pat with
    | nil => simp at hp
    | cons p ps =>
      have hpc : p = c := by simpa using hp
      subst hpc
      exact startsWith_head hsw
  case isFalse => exact absurd h (by simp)

theorem litM_pos (pat : List Char) (hp : 0 < pat.length) : PosM (litM pat) := by
  intro s n h
  unfold litM at h
  split at h
  · cases h; exact hp
  · exact absurd h (by simp)

theorem altM_headIs {m1 m2 : Matcher} {c : Char} (h1 : HeadIs m1 c)
    (h2 : HeadIs m2 c) : HeadIs (altM m1 m2) c := by
  intro s n h
  unfold altM at h
  cases hm : m1 s with
  | some k => exact h1 s k hm
  | none => simp only [hm] at h; exact h2 s n h

theorem altM_pos {m1 m2 : Matcher} (h1 : PosM m1) (h2 : PosM m2) :
    PosM (altM m1 m2) := by
  intro s n h
  unfold altM at h
  cases hm : m1 s with
  | some k => simp only [hm] at h; cases h; exact h1 s n hm
  | none => simp only [hm] at h; exact h2 s n h

theorem modeM_headIs (ds : List Char) : HeadIs (modeM ds) ESC :=
  altM_headIs (litM_headIs ESC _ rfl) (litM_headIs ESC _ rfl)

theorem modeM_pos (ds : List Char) : PosM (modeM ds) :=
  altM_pos (litM_pos _ (by simp)) (litM_pos _ (by simp))

theorem matchDA_headIs : HeadIs matchDA ESC := by
  intro s n h
  rcases s with _ | ⟨c, _ | ⟨d, _ | ⟨e, rest⟩⟩⟩
  · simp [matchDA] at h
  · simp [matchDA] at h
  · simp [matchDA] at h
  · refine ⟨d :: e :: rest, ?_⟩
    simp only [matchDA] at h
    split at h
    case isTrue hc =>
      simp only [Bool.and_eq_true, beq_iff_eq] at hc
      rw [hc.1.1]
    case isFalse => exact absurd h (by simp)

theorem matchDA_pos : PosM matchDA := by
  intro s n h
  rcases s with _ | ⟨c, _ | ⟨d, _ | ⟨e, rest⟩⟩⟩
  · simp [matchDA] at h
  · simp [matchDA] at h
  · simp [matchDA] at h
  · simp only [matchDA] at h
    split at h
    · split at h
      · cases h; omega
      · exact absurd h (by simp)
    · exact absurd h (by simp)

theorem matchCPR_headIs : HeadIs matchCPR ESC := by
  intro s n h
  rcases s with _ | ⟨c, _ | ⟨d, rest⟩⟩
  · simp [matchCPR] at h
  · simp [matchCPR] at h
  · refine ⟨d :: rest, ?_⟩
    simp only [matchCPR] at h
    split at h
    case isTrue hc =>
      simp only [Bool.and_eq_true, beq_iff_eq] at hc
      rw [hc.1]
    case isFalse => exact absurd h (by simp)

theorem matchCPR_pos : PosM matchCPR := by
  intro s n h
  rcases s with _ | ⟨c, _ | ⟨d, rest⟩⟩
  · simp [matchCPR] at h
  · simp [matchCPR] at h
  · simp only [matchCPR] at h
    split at h
    · split at h
      · split at h
        · cases h; omega
        · exact absurd h (by simp)
      · exact absurd h (by simp)
    · exact absurd h (by simp)

theorem matchOSCBel_headIs : HeadIs matchOSCBel ESC := by
  intro s n h
  rcases s with _ | ⟨c, _ | ⟨d, rest⟩⟩
  · simp [matchOSCBel] at h
  · simp [matchOSCBel] at h
  · refine ⟨d :: rest, ?_⟩
    simp only [matchOSCBel] at h
    split at h
    case isTrue hc =>
      simp only [Bool.and_eq_true, beq_iff_eq] at hc
      rw [hc.1]
    case isFalse => exact absurd h (by simp)

theorem matchOSCBel_pos : PosM matchOSCBel := by
  intro s n h
  rcases s with _ | ⟨c, _ | ⟨d, rest⟩⟩
  · simp [matchOSCBel] at h
  · simp [matchOSCBel] at h
  · simp only [matchOSCBel] at h
    split at h
    · split at h
      · cases h; omega
      · exact absurd h (by simp)
    · exact absurd h (by simp)

theorem matchOSCStCode_headIs : HeadIs matchOSCStCode ESC := by
  intro s n h
  rcases s with _ | ⟨c, _ | ⟨d, rest⟩⟩
  · simp [matchOSCStCode] at h
  · simp [matchOSCStCode] at h
  · refine ⟨d :: rest, ?_⟩
    simp only [matchOSCStCode] at h
    split at h
    case isTrue hc =>
      simp only [Bool.and_eq_true, beq_iff_eq] at hc
      rw [hc.1]
    case isFalse => exact absurd h (by simp)

theorem matchOSCStCode_pos : PosM matchOSCStCode := by
  intro s n h
  rcases s with _ | ⟨c, _ | ⟨d, rest⟩⟩
  · simp [matchOSCStCode] at h
  · simp [matchOSCStCode] at h
  · simp only [matchOSCStCode] at h
    split at h
    · split at h
      · split at h
        · cases h; omega
        · exact absurd h (by simp)
      · exact absurd h (by simp)
    · exact absurd h (by simp)

theorem matchOSCStSpec_headIs : HeadIs matchOSCStSpec ESC := by
  intro s n h
  rcases s with _ | ⟨c, _ | ⟨d, rest⟩⟩
  · simp [matchOSCStSpec] at h
  · simp [matchOSCStSpec] at h
  · refine ⟨d :: rest, ?_⟩
    simp only [matchOSCStSpec] at h
    split at h
    case isTrue hc =>
      simp only [Bool.and_eq_true, beq_iff_eq] at hc
      rw [hc.1]
    case isFalse => exact absurd h (by simp)

theorem mode2004_headIs : HeadIs mode2004 ESC := modeM_headIs _

theorem mode1049_headIs : HeadIs mode1049 ESC := modeM_headIs _

theorem mode1_headIs : HeadIs mode1 ESC := modeM_headIs _

theorem mode25_headIs : HeadIs mode25 ESC := modeM_headIs _

theorem mode1000_headIs : HeadIs mode1000 ESC := modeM_headIs _

theorem mode1002_headIs : HeadIs mode1002 ESC := modeM_headIs _

theorem mode1003_headIs : HeadIs mode1003 ESC := modeM_headIs _

theorem mode1006_headIs : HeadIs mode1006 ESC := modeM_headIs _

theorem escS_headIs : HeadIs escS ESC := litM_headIs ESC _ rfl

theorem escU_headIs : HeadIs escU ESC := litM_headIs ESC _ rfl

theorem esc7_headIs : HeadIs esc7 ESC := litM_headIs ESC _ rfl

theorem esc8_headIs : HeadIs esc8 ESC := litM_headIs ESC _ rfl

theorem escMatchers_headIs : ∀ m ∈ escMatchers, HeadIs m ESC := by
  intro m hm
  simp only [escMatchers, List.mem_cons, List.not_mem_nil, or_false] at hm
  rcases hm with rfl | rfl | rfl | rfl | rfl | rfl | rfl | rfl | rfl | rfl | rfl |
    rfl | rfl | rfl | rfl | rfl
  exacts [matchDA_headIs, matchCPR_headIs, mode2004_headIs, mode1049_headIs,
    mode1_headIs, mode25_headIs, mode1000_headIs, mode1002_headIs,
    mode1003_headIs, mode1006_headIs, escS_headIs, escU_headIs, esc7_headIs,
    esc8_headIs, matchOSCBel_headIs, matchOSCStCode_headIs]

theorem escMatchers_pos : ∀ m ∈ escMatchers, PosM m := by
  intro m hm
  simp only [escMatchers, List.mem_cons, List.not_mem_nil, or_false] at hm
  rcases hm with rfl | rfl | rfl | rfl | rfl | rfl | rfl | rfl | rfl | rfl | rfl |
    rfl | rfl | rfl | rfl | rfl
  exacts [matchDA_pos, matchCPR_pos, modeM_pos _, modeM_pos _, modeM_pos _,
    modeM_pos _, modeM_pos _, modeM_pos _, modeM_pos _, modeM_pos _,
    litM_pos _ (by simp), litM_pos _ (by simp), litM_pos _ (by simp),
    litM_pos _ (by simp), matchOSCBel_pos, matchOSCStCode_pos]

theorem headIs_none_of_ne (m : Matcher) (c : Char) (hm : HeadIs m c)
    (x : Char) (rest : List Char) (hx : x ≠ c) : m (x :: rest) = none := by
  cases hmx : m (x :: rest) with
  | none => rfl
  | some k =>
    obtain ⟨t, ht⟩ := hm _ _ hmx
    injection ht with h1 _
    exact absurd h1 hx

theorem removeAll_of_not_mem (m : Matcher) (c : Char) (hm : HeadIs m c) :
    ∀ (s : List Char), c ∉ s → removeAll m s = s := by
  intro s
  induction s with
  | nil => intro _; rfl
  | cons x rest ih =>
    intro h
    have hx : x ≠ c := fun hxc => h (hxc ▸ List.mem_cons_self x rest)
    rw [removeAll_cons_none m x rest (headIs_none_of_ne m c hm x rest hx)]
    rw [ih (fun hc => h (List.mem_cons_of_mem x hc))]

theorem hasM_false_of_not_mem (m : Matcher) (c : Char) (hm : HeadIs m c) :
    ∀ (s : List Char), c ∉ s → hasM m s = false := by
  intro s
  induction s with
  | nil =>
    intro _
    simp only [hasM]
    cases hmx : m [] with
    | some n => obtain ⟨t, ht⟩ := hm _ _ hmx; simp at ht
    | none => rfl
  | cons x rest ih =>
    intro h
    have hx : x ≠ c := fun hxc => h (hxc ▸ List.mem_cons_self x rest)
    simp only [hasM, headIs_none_of_ne m c hm x rest hx, Option.isSome_none,
      Bool.false_or]
    exact ih (fun hc => h (List.mem_cons_of_mem x hc))

theorem esc_not_mem_drop (b : List Char) (n : Nat) (hn : 0 < n)
    (hb : ESC ∉ b) : ESC ∉ List.drop n (ESC :: b) := by
  intro hmem
  cases n with
  | zero => omega
  | succ k =>
    rw [List.drop_succ_cons] at hmem
    exact hb ((List.drop_sublist k b).subset hmem)

theorem removeAll_single_none (m : Matcher) (hm : HeadIs m ESC) :
    ∀ (a b : List Char), ESC ∉ a → ESC ∉ b → m (ESC :: b) = none →
      removeAll m (a ++ ESC :: b) = a ++ ESC :: b := by
  intro a
  induction a with
  | nil =>
    intro b _ hb h
    simp only [List.nil_append]
    rw [removeAll_cons_none m ESC b h, removeAll_of_not_mem m ESC hm b hb]
  | cons x a ih =>
    intro b ha hb h
    have hx : x ≠ ESC := fun hxc => ha (hxc ▸ List.mem_cons_self x a)
    rw [List.cons_append,
      removeAll_cons_none m x _ (headIs_none_of_ne m ESC hm x _ hx)]
    rw [ih b (fun hc => ha (List.mem_cons_of_mem x hc)) hb h]

theorem removeAll_single_some (m : Matcher) (hm : HeadIs m ESC) :
    ∀ (a b : List Char) (n : Nat), ESC ∉ a → ESC ∉ b → m (ESC :: b) = some n →
      0 < n → removeAll m (a ++ ESC :: b) = a ++ List.drop n (ESC :: b) := by
  intro a
  induction a with
  | nil =>
    intro b n _ hb h hn
    simp only [List.nil_append]
    rw [removeAll_cons_some m ESC b n h hn]
    exact removeAll_of_not_mem m ESC hm _ (esc_not_mem_drop b n hn hb)
  | cons x a ih =>
    intro b n ha hb h hn
    have hx : x ≠ ESC := fun hxc => ha (hxc ▸ List.mem_cons_self x a)
    rw [List.cons_append,
      removeAll_cons_none m x _ (headIs_none_of_ne m ESC hm x _ hx)]
    rw [ih b n (fun hc => ha (List.mem_cons_of_mem x hc)) hb h hn]
    rw [List.cons_append]

theorem hasM_single_none (m : Matcher) (hm : HeadIs m ESC) :
    ∀ (a b : List Char), ESC ∉ a → ESC ∉ b → m (ESC :: b) = none →
      hasM m (a ++ ESC :: b) = false := by
  intro a
  induction a with
  | nil =>
    intro b _ hb h
    simp only [List.nil_append, hasM, h, Option.isSome_none, Bool.false_or]
    exact hasM_false_of_not_mem m ESC hm b hb
  | cons x a ih =>
    intro b ha hb h
    have hx : x ≠ ESC := fun hxc => ha (hxc ▸ List.mem_cons_self x a)
    simp only [List.cons_append, hasM, headIs_none_of_ne m ESC hm x _ hx,
      Option.isSome_none, Bool.false_or]
    exact ih b (fun hc => ha (List.mem_cons_of_mem x hc)) hb h

theorem runPasses_cons (m : Matcher) (ms : List Matcher) (s : List Char) :
    runPasses (m :: ms) s = runPasses ms (removeAll m s) := rfl

theorem runPasses_noEsc : ∀ (ms : List Matcher), (∀ m ∈ ms, HeadIs m ESC) →
    ∀ (s : List Char), ESC ∉ s → runPasses ms s = s := by
  intro ms
  induction ms with
  | nil => intro _ s _; rfl
  | cons m ms ih =>
    intro hms s h
    rw [runPasses_cons,
      removeAll_of_not_mem m ESC (hms m (List.mem_cons_self m ms)) s h]
    exact ih (fun m2 hm2 => hms m2 (List.mem_cons_of_mem m hm2)) s h

theorem runPasses_sublist : ∀ (ms : List Matcher) (s : List Char),
    List.Sublist (runPasses ms s) s := by
  intro ms
  induction ms with
  | nil => intro s; exact List.Sublist.refl s
  | cons m ms ih =>
    intro s
    rw [runPasses_cons]
    exact (ih (removeAll m s)).trans (removeAll_sublist m s)

theorem runPasses_single : ∀ (ms : List Matcher), (∀ m ∈ ms, HeadIs m ESC) →
    (∀ m ∈ ms, PosM m) → ∀ (a b : List Char), ESC ∉ a → ESC ∉ b →
      (runPasses ms (a ++ ESC :: b) = a ++ ESC :: b ∧
        ∀ m ∈ ms, m (ESC :: b) = none)
      ∨ ESC ∉ runPasses ms (a ++ ESC :: b) := by
  intro ms
  induction ms with
  | nil =>
    intro _ _ a b _ _
    left
    exact ⟨rfl, by simp⟩
  | cons m ms ih =>
    intro hms hpos a b ha hb
    rw [runPasses_cons]
    cases hmb : m (ESC :: b) with
    | none =>
      rw [removeAll_single_none m (hms m (List.mem_cons_self m ms)) a b ha hb hmb]
      rcases ih (fun m2 hm2 => hms m2 (List.mem_cons_of_mem m hm2))
        (fun m2 hm2 => hpos m2 (List.mem_cons_of_mem m hm2)) a b ha hb with
        ⟨heq, hall⟩ | hno
      · left
        refine ⟨heq, ?_⟩
        intro m2 hm2
        rcases List.mem_cons.mp hm2 with rfl | hm2
        · exact hmb
        · exact hall m2 hm2
      · right; exact hno
    | some n =>
      have hn : 0 < n := hpos m (List.mem_cons_self m ms) _ _ hmb
      rw [removeAll_single_some m (hms m (List.mem_cons_self m ms)) a b n ha hb
        hmb hn]
      have hfree : ESC ∉ a ++ List.drop n (ESC :: b) := by
        intro hmem
        rcases List.mem_append.mp hmem with hx | hx
        · exact ha hx
        · exact esc_not_mem_drop b n hn hb hx
      right
      rw [runPasses_noEsc ms (fun m2 hm2 => hms m2 (List.mem_cons_of_mem m hm2))
        _ hfree]
      exact hfree

theorem takeWhile_all {p : Char → Bool} : ∀ (l : List Char),
    (∀ x ∈ l, p x = true) → l.takeWhile p = l := by
  intro l
  induction l with
  | nil => intro _; rfl
  | cons x l ih =>
    intro h
    rw [List.takeWhile_cons, h x (List.mem_cons_self x l), if_pos rfl]
    rw [ih (fun y hy => h y (List.mem_cons_of_mem x hy))]

theorem oscStSpec_none_of_noEsc (b : List Char) (hb : ESC ∉ b) :
    matchOSCStSpec (ESC :: b) = none := by
  cases b with
  | nil => rfl
  | cons c2 rest =>
    simp only [matchOSCStSpec]
    split
    case isTrue hc =>
      have hrest : rest.takeWhile (fun c => c != ESC) = rest := by
        apply takeWhile_all
        intro x hx
        simp only [bne_iff_ne, ne_eq]
        intro hxe
        exact hb (hxe ▸ List.mem_cons_of_mem c2 hx)
      rw [hrest, List.drop_length]
    case isFalse => rfl

theorem count_one_decomp (c : Char) : ∀ (l : List Char), l.count c = 1 →
    ∃ x y, l = x ++ c :: y ∧ c ∉ x ∧ c ∉ y := by
  intro l
  induction l with
  | nil => intro h; simp at h
  | cons d l ih =>
    intro h
    by_cases hdc : d = c
    · subst hdc
      rw [List.count_cons_self] at h
      have h0 : l.count d = 0 := by omega
      exact ⟨[], l, rfl, by simp, List.count_eq_zero.mp h0⟩
    · rw [List.count_cons_of_ne (fun hcd => hdc hcd.symm) l] at h
      obtain ⟨x, y, rfl, hx, hy⟩ := ih h
      refine ⟨d :: x, y, rfl, ?_, hy⟩
      intro hmem
      rcases List.mem_cons.mp hmem with h1 | h1
      · exact hdc h1.symm
      · exact hx h1

theorem ctlPasses_sublist (s : List Char) : List.Sublist (ctlPasses s) s :=
  (removeAll_sublist _ _).trans
    ((removeAll_sublist _ _).trans (removeAll_sublist _ _))

theorem hasAny_noEsc (s : List Char) (h : ESC ∉ s) :
    hasAnyRecognized s = false := by
  unfold hasAnyRecognized
  rw [hasM_false_of_not_mem matchDA ESC matchDA_headIs s h,
    hasM_false_of_not_mem matchCPR ESC matchCPR_headIs s h,
    hasM_false_of_not_mem mode2004 ESC mode2004_headIs s h,
    hasM_false_of_not_mem mode1049 ESC mode1049_headIs s h,
    hasM_false_of_not_mem mode1 ESC mode1_headIs s h,
    hasM_false_of_not_mem mode25 ESC mode25_headIs s h,
    hasM_false_of_not_mem mode1000 ESC mode1000_headIs s h,
    hasM_false_of_not_mem mode1002 ESC mode1002_headIs s h,
    hasM_false_of_not_mem mode1003 ESC mode1003_headIs s h,
    hasM_false_of_not_mem mode1006 ESC mode1006_headIs s h,
    hasM_false_of_not_mem matchOSCBel ESC matchOSCBel_headIs s h,
    hasM_false_of_not_mem matchOSCStSpec ESC matchOSCStSpec_headIs s h]
  rfl

theorem hasAny_single (a b : List Char) (ha : ESC ∉ a) (hb : ESC ∉ b)
    (hall : ∀ m ∈ escMatchers, m (ESC :: b) = none) :
    hasAnyRecognized (a ++ ESC :: b) = false := by
  unfold hasAnyRecognized
  rw [hasM_single_none matchDA matchDA_headIs a b ha hb
      (hall matchDA (by simp [escMatchers])),
    hasM_single_none matchCPR matchCPR_headIs a b ha hb
      (hall matchCPR (by simp [escMatchers])),
    hasM_single_none mode2004 mode2004_headIs a b ha hb
      (hall mode2004 (by simp [escMatchers])),
    hasM_single_none mode1049 mode1049_headIs a b ha hb
      (hall mode1049 (by simp [escMatchers])),
    hasM_single_none mode1 mode1_headIs a b ha hb
      (hall mode1 (by simp [escMatchers])),
    hasM_single_none mode25 mode25_headIs a b ha hb
      (hall mode25 (by simp [escMatchers])),
    hasM_single_none mode1000 mode1000_headIs a b ha hb
      (hall mode1000 (by simp [escMatchers])),
    hasM_single_none mode1002 mode1002_headIs a b ha hb
      (hall mode1002 (by simp [escMatchers])),
    hasM_single_none mode1003 mode1003_headIs a b ha hb
      (hall mode1003 (by simp [escMatchers])),
    hasM_single_none mode1006 mode1006_headIs a b ha hb
      (hall mode1006 (by simp [escMatchers])),
    hasM_single_none matchOSCBel matchOSCBel_headIs a b ha hb
      (hall matchOSCBel (by simp [escMatchers])),
    hasM_single_none matchOSCStSpec matchOSCStSpec_headIs a b ha hb
      (oscStSpec_none_of_noEsc b hb)]
  rfl

/-! ## Association-list lemmas for the registry -/

def insertKey (ks : List String) (k : String) : List String :=
  if k ∈ ks then ks else ks ++ [k]

theorem alistKeys_insert {α : Type} : ∀ (l : List (String × α)) (k : String) (v : α),
    alistKeys (alistInsert l k v) = insertKey (alistKeys l) k := by
  intro l k v
  induction l with
  | nil => simp [alistInsert, alistKeys, insertKey]
  | cons p l ih =>
    obtain ⟨k2, v2⟩ := p
    by_cases hk : k2 = k
    · subst hk
      simp [alistInsert, alistKeys, insertKey]
    · simp only [alistInsert, if_neg hk, alistKeys, List.map_cons] at *
      rw [ih]
      simp only [insertKey, List.mem_cons]
      by_cases hmem : k ∈ List.map Prod.fst l
      · rw [if_pos hmem, if_pos (Or.inr hmem)]
      · have hniether : ¬(k = k2 ∨ k ∈ List.map Prod.fst l) := by
          rintro (h | h)
          · exact hk h.symm
          · exact hmem h
        rw [if_neg hmem, if_neg hniether, List.cons_append]

theorem nodup_insertKey (ks : List String) (k : String) (h : ks.Nodup) :
    (insertKey ks k).Nodup := by
  unfold insertKey
  split
  · exact h
  · case isFalse hmem =>
    apply List.Nodup.append h (List.nodup_singleton k)
    intro a ha hb
    rw [List.mem_singleton] at hb
    subst hb
    exact hmem ha

theorem alistKeys_erase {α : Type} : ∀ (l : List (String × α)) (k : String),
    alistKeys (alistErase l k) = (alistKeys l).erase k := by
  intro l k
  induction l with
  | nil => rfl
  | cons p l ih =>
    obtain ⟨k2, v2⟩ := p
    by_cases hk : k2 = k
    · subst hk
      have he : alistErase ((k2, v2) :: l) k2 = l := by
        unfold alistErase
        rw [if_pos rfl]
      rw [he]
      show alistKeys l = (k2 :: alistKeys l).erase k2
      rw [List.erase_cons_head]
    · rw [show alistErase ((k2, v2) :: l) k
          = if k2 = k then l else (k2, v2) :: alistErase l k from rfl, if_neg hk]
      show k2 :: alistKeys (alistErase l k) = (k2 :: alistKeys l).erase k
      rw [List.erase_cons_tail (by simp [hk]), ih]

theorem alistLookup_isSome {α : Type} : ∀ (l : List (String × α)) (k : String),
    (alistLookup l k).isSome = true ↔ k ∈ alistKeys l := by
  intro l k
  induction l with
  | nil => simp [alistLookup, alistKeys]
  | cons p l ih =>
    obtain ⟨k2, v2⟩ := p
    by_cases hk : k2 = k
    · subst hk
      simp [alistLookup, alistKeys]
    · simp only [alistLookup, if_neg hk, alistKeys, List.map_cons, List.mem_cons]
      rw [ih]
      constructor
      · exact fun h => Or.inr h
      · rintro (h | h)
        · exact absurd h.symm hk
        · exact h

theorem alistLookup_insert_self {α : Type} : ∀ (l : List (String × α)) (k : String) (v : α),
    alistLookup (alistInsert l k v) k = some v := by
  intro l k v
  induction l with
  | nil => simp [alistInsert, alistLookup]
  | cons p l ih =>
    obtain ⟨k2, v2⟩ := p
    by_cases hk : k2 = k
    · subst hk
      simp [alistInsert, alistLookup]
    · rw [show alistInsert ((k2, v2) :: l) k v
          = if k2 = k then (k, v) :: l else (k2, v2) :: alistInsert l k v from rfl,
        if_neg hk]
      rw [show alistLookup ((k2, v2) :: alistInsert l k v) k
          = if k2 = k then some v2 else alistLookup (alistInsert l k v) k from rfl,
        if_neg hk]
      exact ih

theorem not_mem_erase_self {l : List String} (h : l.Nodup) (a : String) :
    a ∉ l.erase a := by
  intro hmem
  exact ((List.Nodup.mem_erase_iff h).mp hmem).1 rfl

/-! ## Registry invariant -/

def RegInv (st : Registry) : Prop :=
  alistKeys st.sessions = alistKeys st.history ∧
  alistKeys st.sessions = alistKeys st.metadata ∧
  (alistKeys st.sessions).Nodup

theorem create_session_fst_false (st : Registry) (sid : String)
    (name : Option String) (cols rows : Nat) (cmd : Option String) (now : Nat) :
    (SessionManager.create_session st sid name cols rows cmd now false).1 = st := rfl

theorem reachable_inv (st : Registry) (h : Reachable st) : RegInv st := by
  induction h with
  | init => exact ⟨rfl, rfl, List.nodup_nil⟩
  | create st sid name cols rows cmd now ok hr ih =>
    obtain ⟨h1, h2, h3⟩ := ih
    cases ok with
    | false => rw [create_session_fst_false]; exact ⟨h1, h2, h3⟩
    | true =>
      refine ⟨?_, ?_, ?_⟩
      · show alistKeys (alistInsert st.sessions sid _) =
          alistKeys (alistInsert st.history sid _)
        rw [alistKeys_insert, alistKeys_insert, h1]
      · show alistKeys (alistInsert st.sessions sid _) =
          alistKeys (alistInsert st.metadata sid _)
        rw [alistKeys_insert, alistKeys_insert, h2]
      · show (alistKeys (alistInsert st.sessions sid _)).Nodup
        rw [alistKeys_insert]
        exact nodup_insertKey _ _ h3
  | kill st ident hr ih =>
    obtain ⟨h1, h2, h3⟩ := ih
    unfold SessionManager.kill_session
    split
    · split
      · refine ⟨?_, ?_, ?_⟩
        · show alistKeys (alistErase st.sessions _) =
            alistKeys (alistErase st.history _)
          rw [alistKeys_erase, alistKeys_erase, h1]
        · show alistKeys (alistErase st.sessions _) =
            alistKeys (alistErase st.metadata _)
          rw [alistKeys_erase, alistKeys_erase, h2]
        · show (alistKeys (alistErase st.sessions _)).Nodup
          rw [alistKeys_erase]
          exact h3.erase _
      · exact ⟨h1, h2, h3⟩
    · exact ⟨h1, h2, h3⟩
  | record st ident command now hr ih =>
    obtain ⟨h1, h2, h3⟩ := ih
    unfold SessionManager.record_command
    split
    · case _ sid heq =>
      split
      · case _ hist heq2 =>
        refine ⟨?_, h2, h3⟩
        show alistKeys st.sessions = alistKeys (alistInsert st.history sid _)
        rw [alistKeys_insert]
        have hmem : sid ∈ alistKeys st.history :=
          (alistLookup_isSome _ _).mp (by rw [heq2]; rfl)
        unfold insertKey
        rw [if_pos hmem]
        exact h1
      · exact ⟨h1, h2, h3⟩
    · exact ⟨h1, h2, h3⟩
  | cleanup st hr ih => exact ⟨rfl, rfl, List.nodup_nil⟩

/-! ## Claim theorems -/

/-- C1 (amended): for every input chunk that contains at most one escape
character and none of the control characters ETB (0x17), CAN (0x18), FS
(0x1C), the filtered text contains no substring matching any recognized
control-response pattern (DA response, cursor-position report, the eight
mode toggles, OSC terminated by BEL or by escape+backslash).  The
unrestricted claim is false — see `filter_residual_counterexample`. -/
theorem filter_clean_single_escape (s : List Char)
    (h1 : s.count ESC ≤ 1) (h2 : '\x17' ∉ s) (h3 : '\x18' ∉ s)
    (h4 : '\x1c' ∉ s) :
    hasAnyRecognized (TerminalAPI.filter_output s) = false := by
  rcases s with _ | ⟨c, rest⟩
  · decide
  · unfold TerminalAPI.filter_output
    rw [if_neg (by simp : ¬((c :: rest).isEmpty = true))]
    generalize hg : removeAll litTail (c :: rest) = f0
    have hsub : List.Sublist f0 (c :: rest) := hg ▸ removeAll_sublist litTail (c :: rest)
    have hcnt : f0.count ESC ≤ 1 := le_trans (hsub.count_le ESC) h1
    have h2f : '\x17' ∉ f0 := fun hx => h2 (hsub.subset hx)
    have h3f : '\x18' ∉ f0 := fun hx => h3 (hsub.subset hx)
    have h4f : '\x1c' ∉ f0 := fun hx => h4 (hsub.subset hx)
    rcases Nat.le_one_iff_eq_zero_or_eq_one.mp hcnt with h0 | h0
    · have hne : ESC ∉ f0 := List.count_eq_zero.mp h0
      rw [show escPasses f0 = f0 from
        runPasses_noEsc escMatchers escMatchers_headIs f0 hne]
      exact hasAny_noEsc _ (fun hx => hne ((ctlPasses_sublist f0).subset hx))
    · obtain ⟨a, b, rfl, ha, hb⟩ := count_one_decomp ESC f0 h0
      rcases runPasses_single escMatchers escMatchers_headIs escMatchers_pos
        a b ha hb with ⟨heq, hall⟩ | hno
      · rw [show escPasses (a ++ ESC :: b) = a ++ ESC :: b from heq]
        have hctl : ctlPasses (a ++ ESC :: b) = a ++ ESC :: b := by
          unfold ctlPasses
          rw [removeAll_of_not_mem _ '\x17' (litM_headIs '\x17' ['\x17'] rfl) _ h2f]
          rw [removeAll_of_not_mem _ '\x18' (litM_headIs '\x18' ['\x18'] rfl) _ h3f]
          rw [removeAll_of_not_mem _ '\x1c' (litM_headIs '\x1c' ['\x1c'] rfl) _ h4f]
        rw [hctl]
        exact hasAny_single a b ha hb hall
      · exact hasAny_noEsc _ (fun hx => hno ((ctlPasses_sublist _).subset hx))

/-- C1 counterexample: the unrestricted claim is false on the code.
(i) Removing an OSC sequence can splice a DA response together, which then
remains in the output; (ii) removing a stray control character can do the
same; (iii) an OSC terminated by escape+single-backslash is not removed at
all, because the compiled pattern demands two backslashes. -/
theorem filter_residual_counterexample :
    hasAnyRecognized (TerminalAPI.filter_output ("\x1b[?61\x1b]x\x07c".toList)) = true
    ∧ hasAnyRecognized (TerminalAPI.filter_output ("\x1b\x17[?61c".toList)) = true
    ∧ TerminalAPI.filter_output ("\x1b]t\x1b\\".toList) = "\x1b]t\x1b\\".toList
    ∧ hasAnyRecognized ("\x1b]t\x1b\\".toList) = true := by
  refine ⟨by decide, by decide, by decide, by decide⟩

/-- Witness for C1: a chunk with one intact mode-toggle sequence followed by
plain text filters to text without any recognized sequence. -/
theorem filter_clean_single_escape_witness :
    hasAnyRecognized (TerminalAPI.filter_output ("\x1b[?2004hhello".toList)) = false :=
  filter_clean_single_escape ("\x1b[?2004hhello".toList) (by decide) (by decide)
    (by decide) (by decide)

/-- Eviction behaviour of a capacity-bounded deque fold, for any capacity. -/
theorem foldl_dequeAppendCap (cap : Nat) (hcap : 0 < cap) :
    ∀ (cs q : List String), q.length ≤ cap →
      cs.foldl (dequeAppendCap cap) q = (q ++ cs).drop (q.length + cs.length - cap) := by
  intro cs
  induction cs with
  | nil =>
    intro q hq
    simp only [List.foldl_nil, List.length_nil, Nat.add_zero, List.append_nil]
    rw [Nat.sub_eq_zero_of_le hq, List.drop_zero]
  | cons x cs ih =>
    intro q hq
    simp only [List.foldl_cons]
    by_cases hlt : q.length < cap
    · have hstep : dequeAppendCap cap q x = q ++ [x] := by
        unfold dequeAppendCap
        rw [if_pos hlt]
      rw [hstep, ih (q ++ [x]) (by simp only [List.length_append]; simp; omega)]
      have hidx : (q ++ [x]).length + cs.length - cap
          = q.length + (x :: cs).length - cap := by
        simp only [List.length_append, List.length_cons]
        simp
        omega
      rw [hidx, List.append_assoc, List.singleton_append]
    · have hqc : q.length = cap := Nat.le_antisymm hq (Nat.not_lt.mp hlt)
      have hstep : dequeAppendCap cap q x = q.tail ++ [x] := by
        unfold dequeAppendCap
        rw [if_neg hlt]
      rcases q with _ | ⟨qh, qt⟩
      · rw [List.length_nil] at hqc
        omega
      · rw [hstep, ih (List.tail (qh :: qt) ++ [x])
          (by simp only [List.tail_cons, List.length_append]; simp at hqc ⊢; omega)]
        have h1 : (List.tail (qh :: qt) ++ [x]).length + cs.length - cap
            = cs.length := by
          simp only [List.tail_cons, List.length_append, List.length_cons] at hqc ⊢
          simp at hqc ⊢
          omega
        have h2 : (qh :: qt).length + (x :: cs).length - cap = cs.length + 1 := by
          simp only [List.length_cons] at hqc ⊢
          omega
        rw [h1, h2, List.tail_cons, List.append_assoc, List.singleton_append,
          List.cons_append, List.drop_succ_cons]

/-- C5: folding any sequence of chunk appends through the
`deque(maxlen=10000)` append from an empty buffer retains exactly the most
recent `min (length, 10000)` chunks in arrival order — once the capacity is
exceeded the oldest chunks are the ones discarded, one per excess append. -/
theorem buffer_eviction_keeps_latest (chunks : List String) :
    chunks.foldl dequeAppend [] = chunks.drop (chunks.length - bufferMaxlen)
    ∧ (chunks.foldl dequeAppend []).length = min chunks.length bufferMaxlen := by
  have h1 : chunks.foldl dequeAppend [] = chunks.drop (chunks.length - bufferMaxlen) := by
    have h := foldl_dequeAppendCap bufferMaxlen (by decide) chunks []
      (by simp)
    calc chunks.foldl dequeAppend []
        = chunks.foldl (dequeAppendCap bufferMaxlen) [] := rfl
      _ = (([] : List String) ++ chunks).drop
            (List.length ([] : List String) + chunks.length - bufferMaxlen) := h
      _ = chunks.drop (chunks.length - bufferMaxlen) := by
            simp only [List.nil_append, List.length_nil, Nat.zero_add]
  refine ⟨h1, ?_⟩
  rw [h1, List.length_drop]
  omega

/-- C4: a drain (`read_output` with `timeout=0`) returns the concatenation
of the buffered chunks in arrival order and leaves the buffer empty; on an
empty buffer it returns `""` rather than failing, so two consecutive drains
with no intervening append return the prior content and then `""`. -/
theorem read_output_drain (st : TerminalState) :
    (TerminalAPI.read_output st []).2 = String.join st.output_buffer
    ∧ (TerminalAPI.read_output st []).1.output_buffer = []
    ∧ (st.output_buffer = [] → (TerminalAPI.read_output st []).2 = "")
    ∧ (TerminalAPI.read_output (TerminalAPI.read_output st []).1 []).2 = "" := by
  refine ⟨rfl, rfl, ?_, rfl⟩
  intro h
  show String.join (List.foldl dequeAppend st.output_buffer []) = ""
  rw [List.foldl_nil, h]
  rfl

def sampleTerminal : TerminalState :=
  TerminalAPI.init 120 30 "cmd.exe /c wsl -d kali-linux" none

def sampleBufferedTerminal : TerminalState :=
  { sampleTerminal with output_buffer := ["ab", "cd"], running := true }

/-- Witness for C4: the second of two consecutive drains of a concrete
buffered session returns the empty string. -/
theorem read_output_drain_witness :
    (TerminalAPI.read_output (TerminalAPI.read_output sampleBufferedTerminal []).1 []).2 = "" :=
  (read_output_drain sampleBufferedTerminal).2.2.2

def sampleRegistry : Registry :=
  { sessions := [("sid1", sampleTerminal)],
    history := [("sid1", [])],
    metadata := [("sid1", ⟨"s1", 0⟩)] }

/-- C2 (code_bug): `get_history` returns the same empty list for an
identifier that resolves to no session as for an existing session with an
empty history; since the manager never returns `None`, the server's 404
branch ("None means session not found") is dead and both cases surface as
HTTP 200 with `[]` — the explicit not-found outcome the claim requires does
not exist. -/
theorem get_history_notfound_conflated :
    server_get_history sampleRegistry "ghost" = Except.ok []
    ∧ server_get_history sampleRegistry "sid1" = Except.ok []
    ∧ ∀ (st : Registry) (ident : String),
        (SessionManager.get_history st ident).isSome = true := by
  refine ⟨rfl, rfl, ?_⟩
  intro st ident
  unfold SessionManager.get_history
  cases SessionManager.resolve_id st ident <;> rfl

theorem kill_session_none (st : Registry) (ident : String)
    (hres : SessionManager.resolve_id st ident = none) :
    SessionManager.kill_session st ident = (st, false) := by
  unfold SessionManager.kill_session
  split
  next sid2 heq =>
    rw [hres] at heq
    all_goals exact absurd heq (by simp)
  next heq => rfl

theorem kill_session_resolved (st : Registry) (ident sid : String)
    (hres : SessionManager.resolve_id st ident = some sid)
    (hl : (alistLookup st.sessions sid).isSome = true) :
    SessionManager.kill_session st ident =
      ({ sessions := alistErase st.sessions sid,
         history := alistErase st.history sid,
         metadata := alistErase st.metadata sid }, true) := by
  unfold SessionManager.kill_session
  split
  next sid2 heq =>
    rw [hres] at heq
    injection heq with heq2
    subst heq2
    rw [if_pos hl]
  next heq =>
    rw [hres] at heq
    all_goals exact absurd heq (by simp)

theorem kill_session_stale (st : Registry) (ident sid : String)
    (hres : SessionManager.resolve_id st ident = some sid)
    (hl : ¬(alistLookup st.sessions sid).isSome = true) :
    SessionManager.kill_session st ident = (st, false) := by
  unfold SessionManager.kill_session
  split
  next sid2 heq =>
    rw [hres] at heq
    injection heq with heq2
    subst heq2
    rw [if_neg hl]
  next heq =>
    rw [hres] at heq

/-- C3: in every reachable registry state the session, history and metadata
maps have the same key list (and it has no duplicates, so each registered
id has exactly one entry in each); a successful `create_session` registers
the id in all three maps while a failing one (exception before the locked
block) changes nothing; `kill_session` either erases the resolved id from
all three maps (returning `true`) or leaves the state untouched (returning
`false`). -/
theorem registry_maps_aligned (st : Registry) (h : Reachable st) :
    (alistKeys st.sessions = alistKeys st.history
      ∧ alistKeys st.sessions = alistKeys st.metadata
      ∧ (alistKeys st.sessions).Nodup)
    ∧ (∀ (sid : String) (name : Option String) (cols rows : Nat)
        (cmd : Option String) (now : Nat),
        (SessionManager.create_session st sid name cols rows cmd now false).1 = st
        ∧ (alistLookup (SessionManager.create_session st sid name cols rows cmd
            now true).1.sessions sid).isSome = true
        ∧ (alistLookup (SessionManager.create_session st sid name cols rows cmd
            now true).1.history sid).isSome = true
        ∧ (alistLookup (SessionManager.create_session st sid name cols rows cmd
            now true).1.metadata sid).isSome = true)
    ∧ (∀ ident : String,
        ((SessionManager.kill_session st ident).1 = st
          ∧ (SessionManager.kill_session st ident).2 = false)
        ∨ (∃ sid : String, SessionManager.resolve_id st ident = some sid
            ∧ (SessionManager.kill_session st ident).1.sessions
                = alistErase st.sessions sid
            ∧ (SessionManager.kill_session st ident).1.history
                = alistErase st.history sid
            ∧ (SessionManager.kill_session st ident).1.metadata
                = alistErase st.metadata sid
            ∧ sid ∉ alistKeys (SessionManager.kill_session st ident).1.sessions
            ∧ sid ∉ alistKeys (SessionManager.kill_session st ident).1.history
            ∧ sid ∉ alistKeys (SessionManager.kill_session st ident).1.metadata
            ∧ (SessionManager.kill_session st ident).2 = true)) := by
  obtain ⟨h1, h2, h3⟩ := reachable_inv st h
  refine ⟨⟨h1, h2, h3⟩, ?_, ?_⟩
  · intro sid name cols rows cmd now
    refine ⟨rfl, ?_, ?_, ?_⟩
    · show (alistLookup (alistInsert st.sessions sid _) sid).isSome = true
      rw [alistLookup_insert_self]
      rfl
    · show (alistLookup (alistInsert st.history sid _) sid).isSome = true
      rw [alistLookup_insert_self]
      rfl
    · show (alistLookup (alistInsert st.metadata sid _) sid).isSome = true
      rw [alistLookup_insert_self]
      rfl
  · intro ident
    cases hres : SessionManager.resolve_id st ident with
    | none =>
      left
      rw [kill_session_none st ident hres]
      exact ⟨rfl, rfl⟩
    | some sid =>
      by_cases hl : (alistLookup st.sessions sid).isSome = true
      · right
        refine ⟨sid, rfl, ?_⟩
        rw [kill_session_resolved st ident sid hres hl]
        refine ⟨rfl, rfl, rfl, ?_, ?_, ?_, rfl⟩
        · show sid ∉ alistKeys (alistErase st.sessions sid)
          rw [alistKeys_erase]
          exact not_mem_erase_self h3 sid
        · show sid ∉ alistKeys (alistErase st.history sid)
          rw [alistKeys_erase, ← h1]
          exact not_mem_erase_self h3 sid
        · show sid ∉ alistKeys (alistErase st.metadata sid)
          rw [alistKeys_erase, ← h2]
          exact not_mem_erase_self h3 sid
      · left
        rw [kill_session_stale st ident sid hres hl]
        exact ⟨rfl, rfl⟩

/-- Witness for C3: the empty initial registry is reachable and satisfies
the key alignment. -/
theorem registry_maps_aligned_witness :
    alistKeys (Registry.mk [] [] []).sessions
      = alistKeys (Registry.mk [] [] []).history :=
  ((registry_maps_aligned ⟨[], [], []⟩ Reachable.init).1).1

/-- C6: `start` raises exactly when the session is already running, `write`
and `send_command` raise exactly when it is not running, and in each
failing case the state (lifecycle flag, buffer, driver handle) is returned
unchanged and nothing is written to the driver.  (The external PTY spawn
and write are modelled as always succeeding; a driver-level failure would
propagate separately from these explicit checks.) -/
theorem lifecycle_error_iff (st : TerminalState) (text command : String)
    (arrivals : List String) :
    ((TerminalAPI.start st).2 = Except.error TermErr.alreadyRunning
      ↔ st.running = true)
    ∧ (st.running = true → (TerminalAPI.start st).1 = st)
    ∧ ((TerminalAPI.write st text).2.2 = Except.error TermErr.notRunning
      ↔ st.running = false)
    ∧ (st.running = false →
        (TerminalAPI.write st text).1 = st
        ∧ (TerminalAPI.write st text).2.1 = [])
    ∧ ((TerminalAPI.send_command st command arrivals).2.2
        = Except.error TermErr.notRunning ↔ st.running = false)
    ∧ (st.running = false →
        (TerminalAPI.send_command st command arrivals).1 = st
        ∧ (TerminalAPI.send_command st command arrivals).2.1 = []) := by
  unfold TerminalAPI.start TerminalAPI.write TerminalAPI.send_command
  cases hr : st.running <;> simp [hr]

/-- Witness for C6: starting an already-running concrete session fails and
returns the state unchanged. -/
theorem lifecycle_error_iff_witness :
    (TerminalAPI.start sampleBufferedTerminal).1 = sampleBufferedTerminal :=
  (lifecycle_error_iff sampleBufferedTerminal "" "" []).2.1 rfl

/-- C7: resolution tries the identifier as a direct session id first (an id
match shadows any name match), and only on failure scans the metadata map
in insertion order, returning the first session whose stored name equals
the identifier — so a duplicated name resolves to exactly one session,
deterministically for a given registry state; `get_session`'s inlined
lookup agrees with `_resolve_id` followed by a session lookup. -/
theorem resolve_id_shadows_name (st : Registry) (ident : String) :
    ((alistLookup st.sessions ident).isSome = true →
      SessionManager.resolve_id st ident = some ident)
    ∧ (alistLookup st.sessions ident = none →
      SessionManager.resolve_id st ident =
        (st.metadata.find? (fun p => p.2.name == ident)).map Prod.fst)
    ∧ SessionManager.get_session st ident =
        (SessionManager.resolve_id st ident).bind
          (fun sid => alistLookup st.sessions sid) := by
  unfold SessionManager.resolve_id SessionManager.get_session
  refine ⟨?_, ?_, ?_⟩
  · intro hl
    rw [if_pos hl]
  · intro hl
    rw [if_neg (by rw [hl]; simp)]
  · cases hl : alistLookup st.sessions ident with
    | some t =>
      rw [if_pos (show (Option.some t).isSome = true from rfl)]
      simp [hl]
    | none =>
      rw [if_neg (show ¬(Option.none : Option TerminalState).isSome = true by simp)]
      cases hf : st.metadata.find? (fun p => p.2.name == ident) with
      | some p => simp
      | none => simp

def dupNameRegistry : Registry :=
  { sessions := [("id1", sampleTerminal), ("id2", sampleTerminal)],
    history := [("id1", []), ("id2", [])],
    metadata := [("id1", ⟨"a", 0⟩), ("id2", ⟨"a", 1⟩)] }

/-- Witness for C7: with two sessions both named "a", resolving "a" returns
the first one in insertion order. -/
theorem resolve_id_shadows_name_witness :
    SessionManager.resolve_id dupNameRegistry "a" = some "id1" := by
  have h := (resolve_id_shadows_name dupNameRegistry "a").2.1 (by rfl)
  rw [h]
  rfl

/-- C8: on a running session `send_command` writes exactly the command text
followed by one carriage return to the driver, returns the drain of the
chunks that arrived during the settle wait (concatenated in arrival order —
the buffer was cleared first, so earlier content does not appear), and
leaves the buffer empty. -/
theorem send_command_spec (st : TerminalState) (command : String)
    (arrivals : List String) (h : st.running = true) :
    (TerminalAPI.send_command st command arrivals).2.1 = [command ++ "\r"]
    ∧ (TerminalAPI.send_command st command arrivals).2.2
        = Except.ok (String.join (arrivals.foldl dequeAppend []))
    ∧ (TerminalAPI.send_command st command arrivals).1.output_buffer = []
    ∧ (arrivals.length ≤ bufferMaxlen →
        (TerminalAPI.send_command st command arrivals).2.2
          = Except.ok (String.join arrivals)) := by
  unfold TerminalAPI.send_command TerminalAPI.read_output
  rw [if_pos h]
  refine ⟨rfl, rfl, rfl, ?_⟩
  intro hlen
  have harr : arrivals.foldl dequeAppend [] = arrivals := by
    have hfold := foldl_dequeAppendCap bufferMaxlen (by decide) arrivals []
      (by simp)
    calc arrivals.foldl dequeAppend []
        = arrivals.foldl (dequeAppendCap bufferMaxlen) [] := rfl
      _ = (([] : List String) ++ arrivals).drop
            (List.length ([] : List String) + arrivals.length - bufferMaxlen) := hfold
      _ = arrivals := by
            simp only [List.nil_append, List.length_nil, Nat.zero_add]
            rw [Nat.sub_eq_zero_of_le hlen, List.drop_zero]
  show Except.ok (String.join (arrivals.foldl dequeAppend [])) = _
  rw [harr]

/-- Witness for C8: a concrete running session, command and arrivals. -/
theorem send_command_spec_witness :
    (TerminalAPI.send_command sampleBufferedTerminal "ls" ["a", "b"]).2.2
      = Except.ok (String.join ["a", "b"]) :=
  (send_command_spec sampleBufferedTerminal "ls" ["a", "b"] rfl).2.2.2 (by decide)

/-- Conservation of chunks through any schedule in which each drain's read
and clear are adjacent (no reader append interleaves between them) and the
capacity is never exceeded: the drain outputs in order, followed by the
remaining buffer, are exactly the initial buffer followed by the appended
chunks. -/
theorem drainRun_conserve : ∀ (acts : List DrainAct), WFSched acts →
    ∀ (b snap : List String) (outs : List (List String)),
      b.length + (appendedChunks acts).length ≤ bufferMaxlen →
      (drainRun ⟨b, snap, outs⟩ acts).outputs.flatten
          ++ (drainRun ⟨b, snap, outs⟩ acts).buffer
        = outs.flatten ++ b ++ appendedChunks acts := by
  intro acts hwf
  induction hwf with
  | nil =>
    intro b snap outs _
    simp [drainRun, appendedChunks]
  | app s r hr ih =>
    intro b snap outs hlen
    have happ : appendedChunks (DrainAct.appendChunk s :: r)
        = s :: appendedChunks r := by
      simp [appendedChunks]
    rw [happ] at hlen ⊢
    have hstep : drainRun ⟨b, snap, outs⟩ (DrainAct.appendChunk s :: r)
        = drainRun ⟨dequeAppend b s, snap, outs⟩ r := rfl
    rw [hstep]
    have hb : dequeAppend b s = b ++ [s] := by
      unfold dequeAppend dequeAppendCap
      rw [if_pos (by simp only [List.length_cons] at hlen; omega)]
    rw [hb, ih (b ++ [s]) snap outs
      (by simp only [List.length_append, List.length_cons] at hlen ⊢; simp; omega)]
    simp [List.append_assoc]
  | drain r hr ih =>
    intro b snap outs hlen
    have happ : appendedChunks (DrainAct.drainRead :: DrainAct.drainClear :: r)
        = appendedChunks r := by
      simp [appendedChunks]
    rw [happ] at hlen ⊢
    have hstep : drainRun ⟨b, snap, outs⟩
          (DrainAct.drainRead :: DrainAct.drainClear :: r)
        = drainRun ⟨[], b, outs ++ [b]⟩ r := rfl
    rw [hstep]
    rw [ih [] b (outs ++ [b]) (by simp; omega)]
    simp [List.flatten_append, List.append_assoc]

/-- C9 (amended): `read_output`'s read (`''.join`) and clear are two
separate steps on the shared deque, with no lock.  For every interleaving
in which no reader append falls between a drain's read and its clear (and
the capacity bound is not hit), every chunk — initial or appended — ends up
in exactly one drain output or in the final buffer, in order: no chunk is
lost.  A chunk appended between the two steps of a drain is lost — see
`drain_lost_chunk_counterexample`. -/
theorem drain_no_loss_adjacent (acts : List DrainAct) (hwf : WFSched acts)
    (b0 : List String)
    (hlen : b0.length + (appendedChunks acts).length ≤ bufferMaxlen) :
    (drainRun ⟨b0, [], []⟩ acts).outputs.flatten
        ++ (drainRun ⟨b0, [], []⟩ acts).buffer
      = b0 ++ appendedChunks acts := by
  have h := drainRun_conserve acts hwf b0 [] [] hlen
  simpa using h

/-- C9 counterexample: with one chunk "a" buffered, the schedule
read — reader appends "c" — clear loses "c": it is in no drain output and
not in the final buffer. -/
theorem drain_lost_chunk_counterexample :
    (drainRun ⟨["a"], [], []⟩
        [DrainAct.drainRead, DrainAct.appendChunk "c", DrainAct.drainClear]).buffer
      = []
    ∧ (drainRun ⟨["a"], [], []⟩
        [DrainAct.drainRead, DrainAct.appendChunk "c", DrainAct.drainClear]).outputs
      = [["a"]] := by
  refine ⟨rfl, rfl⟩

def sampleSched : List DrainAct :=
  [DrainAct.appendChunk "a", DrainAct.drainRead, DrainAct.drainClear,
   DrainAct.appendChunk "b"]

/-- Witness for C9: a concrete adjacent-drain schedule conserves its
chunks. -/
theorem drain_no_loss_adjacent_witness :
    (drainRun ⟨[], [], []⟩ sampleSched).outputs.flatten
        ++ (drainRun ⟨[], [], []⟩ sampleSched).buffer
      = [] ++ appendedChunks sampleSched :=
  drain_no_loss_adjacent sampleSched
    (WFSched.app "a" _ (WFSched.drain _ (WFSched.app "b" _ WFSched.nil))) []
    (by decide)

theorem mem_dequeAppend (q : List String) (x y : String)
    (h : y ∈ dequeAppend q x) : y ∈ q ∨ y = x := by
  unfold dequeAppend dequeAppendCap at h
  split at h
  · rcases List.mem_append.mp h with h1 | h1
    · exact Or.inl h1
    · simp only [List.mem_singleton] at h1
      exact Or.inr h1
  · rcases List.mem_append.mp h with h1 | h1
    · exact Or.inl ((List.tail_sublist q).subset h1)
    · simp only [List.mem_singleton] at h1
      exact Or.inr h1

/-- C10: a reader-loop step whose raw data filters to the empty string
appends nothing to the buffer and writes nothing to the log sink, leaving
the state unchanged; consequently the buffer never contains an empty chunk
— a step preserves absence of empty chunks. -/
theorem reader_skips_empty (st : TerminalState) (data : String) :
    (TerminalAPI.filter_output_str data = "" →
      TerminalAPI.read_loop_step st data = (st, []))
    ∧ ("" ∉ st.output_buffer →
      "" ∉ (TerminalAPI.read_loop_step st data).1.output_buffer) := by
  constructor
  · intro hf
    simp only [TerminalAPI.read_loop_step]
    split
    · rfl
    · rw [if_pos (by simp [hf])]
  · intro hb hmem
    simp only [TerminalAPI.read_loop_step] at hmem
    split at hmem
    · exact hb hmem
    · split at hmem
      · exact hb hmem
      · next hfne =>
        rcases mem_dequeAppend st.output_buffer
          (TerminalAPI.filter_output_str data) "" hmem with h1 | h1
        · exact hb h1
        · exact hfne (by simp [← h1])

/-- Witness for C10: a chunk that is pure control noise (a cursor-show
toggle) filters to the empty string and the reader step leaves the state
unchanged and logs nothing. -/
theorem reader_skips_empty_witness :
    TerminalAPI.read_loop_step sampleTerminal "\x1b[?25h" = (sampleTerminal, []) :=
  (reader_skips_empty sampleTerminal "\x1b[?25h").1 (by decide)
